import Mathlib

/-!
Verification of wl-tray-bridge core components against its specification.

The development shallowly embeds the relevant Rust code:
  * `src/bussy/src/lib.rs` — the message bus client (signal dispatch,
    kill semantics, pending-reply handles),
  * `src/src/sni/watcher.rs` — the StatusNotifierWatcher service,
  * `src/src/sni/host/item.rs` — the item tracker lifecycle,
  * `src/src/sni/host/menu.rs` — the menu-tree reconciler.

Pure functions are translated directly; stateful code becomes explicit
state-passing functions whose outputs record the externally observable
actions (callback invocations, emitted signals, replies).
-/

namespace WlTrayBridge

/-! ## Mnemonic label decoding

Embeds the `label` handling in `MenuProperties::apply_properties`
(`src/src/sni/host/menu.rs` lines 251-284).  The Rust loop keeps a
`last_was_underscore` flag, pushes characters onto a fresh `label` string and
assigns `self.access_key` each time a non-underscore character follows a
pending underscore.  The `key` argument below is the node's current
`access_key` (the code mutates the existing field; on a fresh node it is
`none`). -/

def scanLabel : List Char → Bool → Option Char → List Char × Option Char
  | [], _, key => ([], key)
  | c :: rest, pending, key =>
    if c = '_' then
      if pending then
        let (l, k) := scanLabel rest false key
        ('_' :: l, k)
      else
        scanLabel rest true key
    else
      if pending then
        let (l, k) := scanLabel rest false (some c)
        (c :: l, k)
      else
        let (l, k) := scanLabel rest pending key
        (c :: l, k)

/-- The label/access-key pair produced for a fresh node (`access_key = none`,
empty accumulator) from a remote label string. -/
def decodeMnemonic (s : String) : String × Option Char :=
  let (l, k) := scanLabel s.data false none
  (String.mk l, k)

/-! ## Watcher service

Embeds `src/src/sni/watcher.rs`.  `Data` holds one `DataMut` per variant
(`fdo`/`kde`); `Data::data(fdo)` selects the sub-state, so the functions below
operate on the selected variant's `DataMut` and tag the emitted actions with
the `fdo` flag.  The Rust `HashSet<String>` is modelled as a duplicate-free
list; `HashSet::insert` returns whether the element was new. -/

structure DataMut where
  items : List String
  hosts : List String
  deriving DecidableEq

def setInsert (s : List String) (x : String) : List String × Bool :=
  if x ∈ s then (s, false) else (s ++ [x], true)

/-- Observable bus actions of the watcher: property updates via
`Object::set_property` (which also emits `PropertiesChanged`) and emitted
signals. -/
inductive WatcherAction where
  | setItemsProperty (fdo : Bool) (items : List String)
  | emitItemRegistered (fdo : Bool) (item : String)
  | emitHostRegistered (fdo : Bool)
  | setHostRegisteredProperty (fdo : Bool) (value : Bool)
  deriving DecidableEq

/-- `service_or_path.starts_with("/")`: whether the first character is a
slash. -/
def startsWithSlash (s : String) : Bool :=
  s.data.head? == some '/'

/-- Item-identifier resolution in `Data::register_status_notifier_item`
(watcher.rs lines 60-76): the freedesktop variant uses the argument verbatim;
the KDE variant prepends the sender's unique name to a slash-prefixed
argument (returning early when the message has no sender) and appends
`"/StatusNotifierItem"` otherwise. -/
def resolveItem (fdo : Bool) (sender : Option String) (serviceOrPath : String) :
    Option String :=
  if fdo then
    some serviceOrPath
  else if startsWithSlash serviceOrPath then
    match sender with
    | some s => some (s ++ serviceOrPath)
    | none => none
  else
    some (serviceOrPath ++ "/StatusNotifierItem")

/-- `Data::register_status_notifier_item` (watcher.rs lines 60-92): resolve
the identifier, insert it into the variant's item set; if it was new, update
the `RegisteredStatusNotifierItems` property and emit
`StatusNotifierItemRegistered` with the resolved identifier. -/
def registerStatusNotifierItem (st : DataMut) (fdo : Bool) (sender : Option String)
    (serviceOrPath : String) : DataMut × List WatcherAction :=
  match resolveItem fdo sender serviceOrPath with
  | none => (st, [])
  | some item =>
    let (items, newItem) := setInsert st.items item
    let st' : DataMut := { st with items := items }
    if newItem then
      (st', [.setItemsProperty fdo st'.items, .emitItemRegistered fdo item])
    else
      (st', [])

/-- `Data::register_status_notifier_host` (watcher.rs lines 94-114). -/
def registerStatusNotifierHost (st : DataMut) (fdo : Bool) (service : String) :
    DataMut × List WatcherAction :=
  let (hosts, newHost) := setInsert st.hosts service
  let firstHost := newHost && (hosts.length == 1)
  let st' : DataMut := { st with hosts := hosts }
  if newHost then
    (st', .emitHostRegistered fdo ::
      (if firstHost then [.setHostRegisteredProperty fdo true] else []))
  else
    (st', [])

/-- Reply sent through the `PendingReply` token. -/
inductive Reply where
  | success
  | error (msg : String)
  deriving DecidableEq

/-- The `RegisterStatusNotifierItem` method handler installed by
`create_watcher` (watcher.rs lines 205-212): once the body has deserialized
as a string, it runs the registration and then unconditionally sends the
empty-body success reply `pr.send(&())`. -/
def registerItemMethod (st : DataMut) (fdo : Bool) (sender : Option String)
    (arg : String) : DataMut × List WatcherAction × Reply :=
  let (st', acts) := registerStatusNotifierItem st fdo sender arg
  (st', acts, .success)

/-- The `RegisterStatusNotifierHost` method handler installed by
`create_watcher` (watcher.rs lines 213-221). -/
def registerHostMethod (st : DataMut) (fdo : Bool) (arg : String) :
    DataMut × List WatcherAction × Reply :=
  let (st', acts) := registerStatusNotifierHost st fdo arg
  (st', acts, .success)

/-! ## Signal dispatch in the message bus client

Embeds the `Type::Signal` arm of `Shared::recv` (`src/bussy/src/lib.rs`
lines 324-345).  Under the lock, every handler in the `signal_handlers`
table whose match rule accepts the message is pushed onto a vector; the lock
is dropped; then `while let Some(handler) = signal_handlers.pop()` takes
handlers from the END of that vector and invokes each one unless its
`disabled` flag is set at that moment.

For a fixed inbound message each handler is summarized by the result of its
match rule and the value its `disabled` flag has when the pop loop reaches
it (the flag may have been set after the snapshot).  `hs` lists the table's
handlers in iteration order; the table is a `HashMap`, whose iteration order
is unspecified and in particular need not be registration order. -/

structure SigHandler where
  id : Nat
  accepts : Bool
  disabled : Bool
  deriving DecidableEq

/-- Snapshot phase: push every matching handler, in table iteration order. -/
def snapshotHandlers (hs : List SigHandler) : List SigHandler :=
  hs.foldl (fun acc h => if h.accepts then acc ++ [h] else acc) []

/-- Invocation phase: popping from the end of the vector is recursion over
the reversed vector.  Returns the invoked handler ids, in invocation
order. -/
def invokeLoop : List SigHandler → List Nat
  | [] => []
  | h :: rest => (if h.disabled then [] else [h.id]) ++ invokeLoop rest

def dispatchSignal (hs : List SigHandler) : List Nat :=
  invokeLoop (snapshotHandlers hs).reverse

/-! ## Item lifecycle

Embeds the status machine of `src/src/sni/host/item.rs`.  The externally
observable effects are the host's new-item callback and the owner callbacks
`removed`, `property_changed`, `menu_changed`. -/

inductive ItemStatus where
  | new
  | announced
  | removed
  deriving DecidableEq

inductive ItemCallback where
  | newItem
  | removedCb
  | propertyChanged
  | menuChanged
  deriving DecidableEq

/-- The parts of `SniItem` and of `Host::items` that the lifecycle claims
depend on.  `hasOwner` is whether the `owner` `ArcSwapOption` holds a value;
`handlersActive` is whether the six change-signal handlers are installed and
not disabled; `hasMenu` is whether `item.menu` holds a session. -/
structure ItemState where
  status : ItemStatus
  inItems : Bool
  hasOwner : Bool
  handlersActive : Bool
  hasMenu : Bool
  deriving DecidableEq

inductive ItemEvent where
  /-- `Host::handle_removed_item` runs for this item's identifier. -/
  | removedItem
  /-- The property-fetch task spawned by `Host::handle_new_item` reaches its
  final part (item.rs lines 455-475); the argument is whether a menu session
  was opened (`Menu::new` succeeded), in which case an initial full delta
  was captured. -/
  | fetchComplete (menuOpened : Bool)
  /-- One of the six `New*` change-signal handlers fires. -/
  | changeSignal
  /-- A `GetLayout` reply callback of the menu session delivers a delta. -/
  | menuLayoutReply

/-- One step of the item lifecycle, returning the new state and the
callbacks invoked during the step.

* `removedItem` (item.rs lines 479-489): if the identifier is still in
  `Host::items`, remove it, set status to `Removed`, swap the owner out
  (invoking `removed()` iff an owner was installed), clear the signal
  handlers (dropping them sets their disabled flags) and drop the menu.
* `fetchComplete` (item.rs lines 455-475): `*item.menu.lock() = menu` runs
  before the status block, so the menu session (if one was opened) is
  installed regardless of the status; then, under the status lock, if the
  status is still `New`, invoke the host's new-item callback (through which
  the renderer installs the owner) and deliver the initial menu delta if
  any; then — unconditionally — set the status to `Announced`.
* `changeSignal` (item.rs lines 355-396): the handler re-fetches properties
  and calls `owner.property_changed` iff an owner is installed; it only runs
  while the handler is not disabled.
* `menuLayoutReply` (menu.rs lines 126-145): calls `owner.menu_changed` iff
  the menu session still exists and an owner is installed. -/
def itemStep (s : ItemState) : ItemEvent → ItemState × List ItemCallback
  | .removedItem =>
    if s.inItems then
      ({ status := .removed, inItems := false, hasOwner := false,
         handlersActive := false, hasMenu := false },
       if s.hasOwner then [.removedCb] else [])
    else
      (s, [])
  | .fetchComplete menuOpened =>
    if s.status = .new then
      ({ s with
          status := .announced
          hasOwner := true
          hasMenu := s.hasMenu || menuOpened },
       .newItem :: (if menuOpened then [.menuChanged] else []))
    else
      ({ s with
          status := .announced
          hasMenu := s.hasMenu || menuOpened }, [])
  | .changeSignal =>
    (s, if s.handlersActive && s.hasOwner then [.propertyChanged] else [])
  | .menuLayoutReply =>
    (s, if s.hasMenu && s.hasOwner then [.menuChanged] else [])

/-- Run a sequence of lifecycle events, collecting all invoked callbacks. -/
def itemRun (s : ItemState) : List ItemEvent → ItemState × List ItemCallback
  | [] => (s, [])
  | e :: rest =>
    let (s', out) := itemStep s e
    let (s'', outs) := itemRun s' rest
    (s'', out ++ outs)

/-- A state in which an item can make no further observable callback: it is
out of the tracker map, has no owner installed, its change-signal handlers
are disabled, and its status cannot go back to `New`. -/
def ItemDead (s : ItemState) : Prop :=
  s.inItems = false ∧ s.hasOwner = false ∧ s.handlersActive = false ∧
    s.status ≠ .new

/-! ## Kill semantics of the message bus client

Embeds `Shared::kill`, `Shared::kill_reply`, `Shared::kill_queue` and the
routing in `Shared::call_async` (`src/bussy/src/lib.rs` lines 194-212,
395-411, 484-492). -/

structure MbcState where
  /-- Serials of the `pending_replies` table, in insertion order. -/
  pendingReplies : List Nat
  /-- Handle ids of the `signal_handlers` table. -/
  signalHandlers : List Nat
  /-- Paths of the exported `objects` table. -/
  objects : List String
  killed : Bool
  deriving DecidableEq

inductive MbcOutput where
  /-- The pending-reply callback for this serial is invoked with
  `Err(Error::Killed)`. -/
  | callbackKilled (serial : Nat)
  deriving DecidableEq

/-- `Shared::kill`: abort the reader/writer tasks, set the killed flag,
clear the signal-handler and exported-object tables, take the
pending-replies map, and invoke every drained callback with
`Error::Killed`. -/
def kill (s : MbcState) : MbcState × List MbcOutput :=
  ({ pendingReplies := [], signalHandlers := [], objects := [], killed := true },
   s.pendingReplies.map .callbackKilled)

/-- The enqueue part of `Shared::call_async`: the callback is inserted into
`pending_replies`, then the message is routed to the kill queue iff the
killed flag is set (otherwise to the ordinary outgoing queue). -/
def callAsyncEnqueue (s : MbcState) (serial : Nat) : MbcState × Bool :=
  ({ s with pendingReplies := s.pendingReplies ++ [serial] }, s.killed)

/-- `Shared::kill_reply`: remove the serial's entry from `pending_replies`
if present and invoke it with the given error (`Killed` on the kill-queue
path). -/
def killReply (s : MbcState) (serial : Nat) : MbcState × List MbcOutput :=
  if serial ∈ s.pendingReplies then
    ({ s with pendingReplies := s.pendingReplies.erase serial },
     [.callbackKilled serial])
  else
    (s, [])

/-- A call issued after the connection is killed: `call_async` inserts the
callback and routes the message to the kill queue, whose task
(`Shared::kill_queue`) replays it through `kill_reply` with
`Error::Killed`. -/
def postKillCall (s : MbcState) (serial : Nat) : MbcState × List MbcOutput :=
  let (s1, routedToKillQueue) := callAsyncEnqueue s serial
  if routedToKillQueue then killReply s1 serial else (s1, [])

/-! ## Pending-call handle semantics

Embeds the lifecycle of one `call_async` call: the `Call` handle
(`src/bussy/src/lib.rs` lines 1042-1067), the reply path of `Shared::recv`
(lines 291-322) and the kill path.  The state tracks whether the serial's
entry is still in `pending_replies`, whether `detach` was called, and how
often the callback has run. -/

structure CallState where
  present : Bool
  detached : Bool
  invoked : Nat
  deriving DecidableEq

inductive CallEvent where
  /-- The `Call` handle is dropped (`Call::drop`): unless detached, the
  pending-replies entry is removed. -/
  | dropHandle
  /-- `Call::detach` is called. -/
  | detach
  /-- A `MethodReturn` or `Error` message with this reply serial arrives:
  `Shared::recv` removes the entry and, iff one was present, invokes it. -/
  | reply
  /-- The connection is killed: `Shared::kill` drains the entry and, iff one
  was present, invokes it with `Error::Killed`. -/
  | kill
  deriving DecidableEq

def callStep (s : CallState) : CallEvent → CallState
  | .dropHandle => if s.detached then s else { s with present := false }
  | .detach => { s with detached := true }
  | .reply =>
    if s.present then
      { present := false, detached := s.detached, invoked := s.invoked + 1 }
    else s
  | .kill =>
    if s.present then
      { present := false, detached := s.detached, invoked := s.invoked + 1 }
    else s

def callRun (s : CallState) (evs : List CallEvent) : CallState :=
  evs.foldl callStep s

/-- State right after `call_async` returns its handle. -/
def callInit : CallState :=
  { present := true, detached := false, invoked := 0 }

/-! ## Menu session: inflight layout queries

Embeds `Menu::update_layout` and the `ItemsPropertiesUpdated` signal handler
installed in `Menu::new` (`src/src/sni/host/menu.rs` lines 79-97 and
111-148).  `layoutUpdates` holds the keys of the inflight-query table. -/

structure MenuSessionState where
  revision : Nat
  nextLayoutUpdate : Nat
  layoutUpdates : List Nat
  deriving DecidableEq

inductive MenuSessionAction where
  /-- `update_layout`: a `GetLayout(parentId, -1, [])` call is issued and
  tracked under the fresh query id. -/
  | issueGetLayout (parentId : Int) (queryId : Nat)
  /-- `update_properties`: the property diff is merged directly into the
  mirror tree via `merge_property_tree`. -/
  | directMerge
  deriving DecidableEq

/-- `Menu::update_layout` (menu.rs lines 111-148): increment
`next_layout_update`, issue the `GetLayout` call and insert it into the
inflight table. -/
def updateLayout (m : MenuSessionState) (menuId : Int) :
    MenuSessionState × MenuSessionAction :=
  let id := m.nextLayoutUpdate + 1
  ({ m with nextLayoutUpdate := id, layoutUpdates := m.layoutUpdates ++ [id] },
   .issueGetLayout menuId id)

/-- The `ItemsPropertiesUpdated` handler (menu.rs lines 79-97): if the
inflight-query table is non-empty, trigger a full layout refresh with
parent id 0 and discard the diff; otherwise merge the diff directly. -/
def handleItemsPropertiesUpdated (m : MenuSessionState) :
    MenuSessionState × MenuSessionAction :=
  if m.layoutUpdates.isEmpty then (m, .directMerge) else updateLayout m 0

/-! ## Menu tree reconciler

Embeds the menu mirror of `src/src/sni/host/menu.rs`.  `MenuProperties`
carries the ten decoded fields that `MenuTree::merge_properties` diffs (the
Rust struct holds an additional `menu_id` field, but no code ever assigns or
reads it — parsing leaves it at its default and `merge_properties` does not
diff it — so it is omitted).  `IndexMap<i32, MenuTree>` keyed by each
child's own `menu_id` is modelled as a list of children: every insertion
site uses `child.menu_id` as the key, and `IndexMap` keys are unique, which
the well-formedness predicate `WF` captures. -/

inductive SniMenuToggleType where
  | checkmark
  | radio
  deriving DecidableEq

structure MenuProperties where
  separator : Bool
  accessKey : Option Char
  label : String
  enabled : Bool
  visible : Bool
  iconName : String
  iconPng : List Nat
  toggleType : Option SniMenuToggleType
  toggleState : Bool
  childrenDisplay : Bool
  deriving DecidableEq

/-- `SniMenuPropertiesDelta`: one optional slot per diffed field. -/
structure SniMenuPropertiesDelta where
  separator : Option Bool
  accessKey : Option (Option Char)
  label : Option String
  enabled : Option Bool
  visible : Option Bool
  iconName : Option String
  iconPng : Option (List Nat)
  toggleType : Option (Option SniMenuToggleType)
  toggleState : Option Bool
  childrenDisplay : Option Bool
  deriving DecidableEq

/-- `MenuTree::merge_properties` (menu.rs lines 308-331): each differing
field is copied from `new` into `self` and recorded in the delta;
`any_props_differ` is the disjunction of the per-field comparisons; the
delta is returned iff some field differed. -/
def mergeProperties (old new : MenuProperties) :
    MenuProperties × Option SniMenuPropertiesDelta :=
  let anyDiff : Bool :=
    (old.separator != new.separator) || (old.accessKey != new.accessKey) ||
    (old.label != new.label) || (old.enabled != new.enabled) ||
    (old.visible != new.visible) || (old.iconName != new.iconName) ||
    (old.iconPng != new.iconPng) || (old.toggleType != new.toggleType) ||
    (old.toggleState != new.toggleState) ||
    (old.childrenDisplay != new.childrenDisplay)
  let d : SniMenuPropertiesDelta :=
    { separator := if old.separator = new.separator then none else some new.separator
      accessKey := if old.accessKey = new.accessKey then none else some new.accessKey
      label := if old.label = new.label then none else some new.label
      enabled := if old.enabled = new.enabled then none else some new.enabled
      visible := if old.visible = new.visible then none else some new.visible
      iconName := if old.iconName = new.iconName then none else some new.iconName
      iconPng := if old.iconPng = new.iconPng then none else some new.iconPng
      toggleType := if old.toggleType = new.toggleType then none else some new.toggleType
      toggleState := if old.toggleState = new.toggleState then none else some new.toggleState
      childrenDisplay :=
        if old.childrenDisplay = new.childrenDisplay then none
        else some new.childrenDisplay }
  let merged : MenuProperties :=
    { separator := if old.separator = new.separator then old.separator else new.separator
      accessKey := if old.accessKey = new.accessKey then old.accessKey else new.accessKey
      label := if old.label = new.label then old.label else new.label
      enabled := if old.enabled = new.enabled then old.enabled else new.enabled
      visible := if old.visible = new.visible then old.visible else new.visible
      iconName := if old.iconName = new.iconName then old.iconName else new.iconName
      iconPng := if old.iconPng = new.iconPng then old.iconPng else new.iconPng
      toggleType := if old.toggleType = new.toggleType then old.toggleType else new.toggleType
      toggleState :=
        if old.toggleState = new.toggleState then old.toggleState else new.toggleState
      childrenDisplay :=
        if old.childrenDisplay = new.childrenDisplay then old.childrenDisplay
        else new.childrenDisplay }
  (merged, if anyDiff then some d else none)

/-- `MenuTree` (menu.rs lines 300-305): node id, decoded properties, and the
ordered children. -/
inductive MenuTree where
  | mk (menuId : Int) (properties : MenuProperties) (children : List MenuTree)

def MenuTree.menuId : MenuTree → Int
  | .mk i _ _ => i

def MenuTree.properties : MenuTree → MenuProperties
  | .mk _ p _ => p

def MenuTree.children : MenuTree → List MenuTree
  | .mk _ _ cs => cs

/-- `SniMenuDelta` (menu.rs lines 465-470): node id, optional properties
delta, optional ordered children mapping from menu-id to optional child
delta. -/
inductive SniMenuDelta where
  | mk (menuId : Int) (properties : Option SniMenuPropertiesDelta)
      (children : Option (List (Int × Option SniMenuDelta)))

def SniMenuDelta.menuId : SniMenuDelta → Int
  | .mk i _ _ => i

def SniMenuDelta.properties : SniMenuDelta → Option SniMenuPropertiesDelta
  | .mk _ p _ => p

def SniMenuDelta.children : SniMenuDelta → Option (List (Int × Option SniMenuDelta))
  | .mk _ _ cs => cs

/-- `From<MenuProperties> for SniMenuPropertiesDelta` (menu.rs lines
448-463): every field is present. -/
def fullPropsDelta (p : MenuProperties) : SniMenuPropertiesDelta :=
  { separator := some p.separator
    accessKey := some p.accessKey
    label := some p.label
    enabled := some p.enabled
    visible := some p.visible
    iconName := some p.iconName
    iconPng := some p.iconPng
    toggleType := some p.toggleType
    toggleState := some p.toggleState
    childrenDisplay := some p.childrenDisplay }

/-- `From<MenuTree> for SniMenuDelta` (menu.rs lines 472-486): the full
subtree as a delta; every child is present with `some` of its own full
delta. -/
def fullDelta : MenuTree → SniMenuDelta
  | .mk i p cs =>
    .mk i (some (fullPropsDelta p))
      (some (cs.attach.map (fun c => (c.1.menuId, some (fullDelta c.1)))))
decreasing_by
  have := List.sizeOf_lt_of_mem c.2
  simp only [MenuTree.mk.sizeOf_spec]
  omega

/-- `IndexMap::get(&menu_id)` on a children list keyed by each child's own
menu id: the first child with the given id. -/
def findChild (cs : List MenuTree) (i : Int) : Option MenuTree :=
  cs.find? (fun c => c.menuId == i)

/-- Writing through `IndexMap::get_mut(&menu_id)`: replace the first child
with the given id, in place. -/
def replaceChild : List MenuTree → Int → MenuTree → List MenuTree
  | [], _, _ => []
  | c :: rest, i, c' =>
    if c.menuId == i then c' :: rest else c :: replaceChild rest i c'

/-- The menu ids of a children list (the `IndexMap` keys). -/
def idsOf (cs : List MenuTree) : List Int :=
  cs.map MenuTree.menuId

/-- `self.children.retain(|menu_id, _| new.children.contains_key(menu_id))`
in `MenuTree::merge`. -/
def keptChildren (t n : MenuTree) : List MenuTree :=
  t.children.filter (fun c => (findChild n.children c.menuId).isSome)

/-- Whether the `retain` call in `MenuTree::merge` dropped any child. -/
def removedAnyChild (t n : MenuTree) : Bool :=
  t.children.any (fun c => (findChild n.children c.menuId).isNone)

mutual

/-- `MenuTree::merge` (menu.rs lines 333-367).  `self` is mutated in place;
here the updated tree is returned together with the optional delta.  The
function starts with `assert_eq!(self.menu_id, new.menu_id)`; the model
keeps `self`'s id, and the theorems assume the ids agree.  The children
loop walks `new.children` in order: an id missing from `self.children` is
appended (full-subtree delta); an existing id is merged recursively in
place. -/
def mergeTree : MenuTree → MenuTree → MenuTree × Option SniMenuDelta
  | .mk tid tprops tcs, .mk _nid nprops ncs =>
    let pd := mergeProperties tprops nprops
    let kept := tcs.filter (fun c => (findChild ncs c.menuId).isSome)
    let removedAny := tcs.any (fun c => (findChild ncs c.menuId).isNone)
    let r := mergeChildren kept ncs
    let anyChildChanged := removedAny || r.2.2
    let delta :=
      if pd.2.isNone && !anyChildChanged then none
      else
        some (SniMenuDelta.mk tid pd.2 (if anyChildChanged then some r.2.1 else none))
    (MenuTree.mk tid pd.1 r.1, delta)
termination_by _ n => sizeOf n

/-- The `for child in new.children.into_values()` loop of `MenuTree::merge`:
threads the current children list, and accumulates the delta-map entries
(in `new` order) and the `any_child_changed` contribution. -/
def mergeChildren (cur : List MenuTree) :
    List MenuTree → List MenuTree × List (Int × Option SniMenuDelta) × Bool
  | [] => (cur, [], false)
  | nc :: rest =>
    let pr :=
      match findChild cur nc.menuId with
      | none => (cur ++ [nc], some (fullDelta nc))
      | some c =>
        let m := mergeTree c nc
        (replaceChild cur nc.menuId m.1, m.2)
    let r := mergeChildren pr.1 rest
    (r.1, (nc.menuId, pr.2) :: r.2.1, pr.2.isSome || r.2.2)
termination_by ns => sizeOf ns

end

/-- The delta-map entry `MenuTree::merge` records for the new-tree child
`nc`, given the retained children `cur`: a full subtree for an unknown id,
the recursive merge delta for a known one. -/
def mergeEntry (cur : List MenuTree) (nc : MenuTree) : Option SniMenuDelta :=
  match findChild cur nc.menuId with
  | none => some (fullDelta nc)
  | some c => (mergeTree c nc).2

/-- Well-formedness: within every node, children ids are unique.  This is
an `IndexMap` representation invariant, so every tree the Rust code builds
satisfies it. -/
inductive WF : MenuTree → Prop where
  | mk (menuId : Int) (properties : MenuProperties) (children : List MenuTree) :
      (idsOf children).Nodup → (∀ c ∈ children, WF c) →
      WF (.mk menuId properties children)

/-! ## Basic lemmas -/

@[simp]
theorem MenuTree.menuId_mk (i : Int) (p : MenuProperties) (cs : List MenuTree) :
    (MenuTree.mk i p cs).menuId = i := rfl

@[simp]
theorem MenuTree.properties_mk (i : Int) (p : MenuProperties) (cs : List MenuTree) :
    (MenuTree.mk i p cs).properties = p := rfl

@[simp]
theorem MenuTree.children_mk (i : Int) (p : MenuProperties) (cs : List MenuTree) :
    (MenuTree.mk i p cs).children = cs := rfl

theorem mergeProperties_fst (old new : MenuProperties) :
    (mergeProperties old new).1 = new := by
  cases old
  cases new
  simp only [mergeProperties, MenuProperties.mk.injEq]
  refine ⟨?_, ?_, ?_, ?_, ?_, ?_, ?_, ?_, ?_, ?_⟩ <;> (split <;> simp_all)

theorem mergeProperties_snd_none_iff (old new : MenuProperties) :
    (mergeProperties old new).2 = none ↔ old = new := by
  cases old
  cases new
  simp only [mergeProperties, MenuProperties.mk.injEq]
  split <;> simp_all [bne_iff_ne]
  tauto

/-! ## C6: mnemonic decoding -/

/-- C6: the mnemonic decoder scans left to right; a single underscore sets
the pending flag without emitting; two underscores in a row emit one
literal underscore and clear the flag; a non-underscore character with the
flag pending is emitted and stored as the access key; decoding
`"Save _As..."` on a fresh node yields `"Save As..."` with access key `A`,
and `"C__PP"` yields `"C_PP"` with no access key. -/
theorem mnemonic_decoding :
    (∀ rest key, scanLabel ('_' :: rest) false key = scanLabel rest true key) ∧
    (∀ rest key l k, scanLabel rest false key = (l, k) →
      scanLabel ('_' :: rest) true key = ('_' :: l, k)) ∧
    (∀ c rest key l k, c ≠ '_' → scanLabel rest false (some c) = (l, k) →
      scanLabel (c :: rest) true key = (c :: l, k)) ∧
    decodeMnemonic "Save _As..." = ("Save As...", some 'A') ∧
    decodeMnemonic "C__PP" = ("C_PP", none) := by
  refine ⟨?_, ?_, ?_, by decide, by decide⟩
  · intro rest key
    simp [scanLabel]
  · intro rest key l k h
    simp [scanLabel, h]
  · intro c rest key l k hc h
    simp [scanLabel, hc, h]

theorem mnemonic_decoding_witness :
    ('A' ≠ '_' ∧ scanLabel [] false (some 'A') = ([], some 'A')) ∧
    scanLabel ['A'] true none = (['A'], some 'A') :=
  ⟨⟨by decide, by decide⟩,
    mnemonic_decoding.2.2.1 'A' [] none [] (some 'A') (by decide) (by decide)⟩

/-! ## C5: watcher item registration -/

/-- C5: the KDE variant prepends the sender's unique name to a
slash-prefixed argument and appends `/StatusNotifierItem` otherwise; the
freedesktop variant uses the argument verbatim; a new resolved identifier
updates the `RegisteredStatusNotifierItems` property and emits
`StatusNotifierItemRegistered` with the resolved identifier, while an
already-present identifier causes neither. -/
theorem watcher_item_registration (st : DataMut) (fdo : Bool)
    (sender : Option String) (arg s item : String) :
    resolveItem true sender arg = some arg ∧
    (startsWithSlash arg → resolveItem false (some s) arg = some (s ++ arg)) ∧
    (¬ startsWithSlash arg →
      resolveItem false sender arg = some (arg ++ "/StatusNotifierItem")) ∧
    (resolveItem fdo sender arg = some item → item ∉ st.items →
      registerStatusNotifierItem st fdo sender arg =
        ({ st with items := st.items ++ [item] },
         [.setItemsProperty fdo (st.items ++ [item]),
          .emitItemRegistered fdo item])) ∧
    (resolveItem fdo sender arg = some item → item ∈ st.items →
      registerStatusNotifierItem st fdo sender arg = (st, [])) := by
  refine ⟨by simp [resolveItem], ?_, ?_, ?_, ?_⟩
  · intro h
    simp [resolveItem, h]
  · intro h
    simp [resolveItem, h]
  · intro hres hmem
    simp [registerStatusNotifierItem, hres, setInsert, hmem]
  · intro hres hmem
    simp [registerStatusNotifierItem, hres, setInsert, hmem]

theorem watcher_item_registration_witness :
    (startsWithSlash "/StatusNotifierItem" ∧
      resolveItem false (some ":1.7") "/StatusNotifierItem" =
        some ":1.7/StatusNotifierItem") ∧
    (resolveItem false (some ":1.7") "/StatusNotifierItem" =
        some ":1.7/StatusNotifierItem" →
      ":1.7/StatusNotifierItem" ∉ (⟨[], []⟩ : DataMut).items →
      registerStatusNotifierItem ⟨[], []⟩ false (some ":1.7")
          "/StatusNotifierItem" =
        (⟨[":1.7/StatusNotifierItem"], []⟩,
         [.setItemsProperty false [":1.7/StatusNotifierItem"],
          .emitItemRegistered false ":1.7/StatusNotifierItem"])) :=
  ⟨⟨by decide,
    (watcher_item_registration ⟨[], []⟩ false (some ":1.7") "/StatusNotifierItem"
      ":1.7" "x").2.1 (by decide)⟩,
   fun h _ =>
    (watcher_item_registration ⟨[], []⟩ false (some ":1.7") "/StatusNotifierItem"
      ":1.7" ":1.7/StatusNotifierItem").2.2.2.1 h (by simp)⟩

/-! ## C10: watcher always replies success -/

/-- C10: every `RegisterStatusNotifierItem` / `RegisterStatusNotifierHost`
call whose body deserializes as a string receives an empty-body success
reply, even when nothing changes: an already-registered item or host, or a
KDE slash-prefixed argument on a message without a sender (registration
silently skipped, reply still success). -/
theorem watcher_replies_success (st : DataMut) (fdo : Bool)
    (sender : Option String) (arg item : String) :
    (registerItemMethod st fdo sender arg).2.2 = .success ∧
    (registerHostMethod st fdo arg).2.2 = .success ∧
    (resolveItem fdo sender arg = some item → item ∈ st.items →
      registerItemMethod st fdo sender arg = (st, [], .success)) ∧
    (arg ∈ st.hosts → registerHostMethod st fdo arg = (st, [], .success)) ∧
    (startsWithSlash arg →
      registerItemMethod st false none arg = (st, [], .success)) := by
  refine ⟨?_, ?_, ?_, ?_, ?_⟩
  · simp only [registerItemMethod]
  · simp only [registerHostMethod]
  · intro hres hmem
    simp [registerItemMethod, registerStatusNotifierItem, hres, setInsert, hmem]
  · intro hmem
    simp [registerHostMethod, registerStatusNotifierHost, setInsert, hmem]
  · intro h
    simp [registerItemMethod, registerStatusNotifierItem, resolveItem, h]

theorem watcher_replies_success_witness :
    (resolveItem true none "com.example.App" = some "com.example.App" ∧
      "com.example.App" ∈ (⟨["com.example.App"], []⟩ : DataMut).items ∧
      registerItemMethod ⟨["com.example.App"], []⟩ true none "com.example.App" =
        (⟨["com.example.App"], []⟩, [], .success)) ∧
    (startsWithSlash "/Foo" ∧
      registerItemMethod (⟨[], []⟩ : DataMut) false none "/Foo" =
        (⟨[], []⟩, [], .success)) :=
  ⟨⟨by decide, by decide,
    (watcher_replies_success ⟨["com.example.App"], []⟩ true none "com.example.App"
      "com.example.App").2.2.1 (by decide) (by decide)⟩,
   ⟨by decide,
    (watcher_replies_success ⟨[], []⟩ false none "/Foo" "x").2.2.2.2
      (by decide)⟩⟩

/-! ## C1: signal dispatch order -/

theorem snapshotHandlers_eq_filter (hs : List SigHandler) :
    snapshotHandlers hs = hs.filter (fun h => h.accepts) := by
  have key : ∀ (l : List SigHandler) (acc : List SigHandler),
      l.foldl (fun acc h => if h.accepts then acc ++ [h] else acc) acc =
        acc ++ l.filter (fun h => h.accepts) := by
    intro l
    induction l with
    | nil => simp
    | cons h rest ih =>
      intro acc
      by_cases hm : h.accepts <;> simp [List.filter_cons, hm, ih]
  simpa using key hs []

theorem invokeLoop_eq (l : List SigHandler) :
    invokeLoop l = (l.filter (fun h => !h.disabled)).map (fun h => h.id) := by
  induction l with
  | nil => rfl
  | cons h rest ih =>
    by_cases hd : h.disabled <;> simp [invokeLoop, List.filter_cons, hd, ih]

/-- C1 (counterexample): two enabled handlers registered in the order 1, 2,
both matching, are invoked in the order 2, 1 — the pop loop reverses the
snapshot, so dispatch is not in registration order even when the table
iterates in registration order. -/
theorem signal_dispatch_not_registration_order :
    dispatchSignal [⟨1, true, false⟩, ⟨2, true, false⟩] = [2, 1] ∧
    dispatchSignal [⟨1, true, false⟩, ⟨2, true, false⟩] ≠ [1, 2] := by
  decide

/-- C1 (amended): signal dispatch snapshots, under the lock, the registered
handlers whose match rule accepts the message (in table iteration order)
and then invokes the callbacks by popping from the end of the snapshot —
i.e. in reverse snapshot order, not registration order — skipping every
handler whose disabled flag became true by the time it is popped. -/
theorem signal_dispatch_order (hs : List SigHandler) :
    dispatchSignal hs =
      (((hs.filter (fun h => h.accepts)).reverse.filter
          (fun h => !h.disabled)).map (fun h => h.id)) := by
  rw [dispatchSignal, snapshotHandlers_eq_filter, invokeLoop_eq]

/-! ## C8: inflight layout queries block direct property merges -/

/-- C8: while the inflight layout-query table is non-empty, an
`ItemsPropertiesUpdated` signal is never merged directly; instead a full
layout refresh with parent id 0 is issued under a fresh query id; the diff
is merged directly exactly when no layout query is inflight. -/
theorem menu_inflight_blocks_direct_merge (m : MenuSessionState) :
    ((handleItemsPropertiesUpdated m).2 = .directMerge ↔ m.layoutUpdates = []) ∧
    (m.layoutUpdates ≠ [] →
      handleItemsPropertiesUpdated m =
        ({ m with
            nextLayoutUpdate := m.nextLayoutUpdate + 1
            layoutUpdates := m.layoutUpdates ++ [m.nextLayoutUpdate + 1] },
         .issueGetLayout 0 (m.nextLayoutUpdate + 1))) ∧
    (m.layoutUpdates = [] → handleItemsPropertiesUpdated m = (m, .directMerge)) := by
  refine ⟨?_, ?_, ?_⟩
  · by_cases h : m.layoutUpdates = [] <;>
      simp [handleItemsPropertiesUpdated, updateLayout, h]
  · intro h
    simp [handleItemsPropertiesUpdated, updateLayout, h]
  · intro h
    simp [handleItemsPropertiesUpdated, h]

theorem menu_inflight_blocks_direct_merge_witness :
    ((⟨3, 1, [1]⟩ : MenuSessionState).layoutUpdates ≠ [] ∧
      handleItemsPropertiesUpdated ⟨3, 1, [1]⟩ =
        (⟨3, 2, [1, 2]⟩, .issueGetLayout 0 2)) ∧
    ((⟨3, 1, []⟩ : MenuSessionState).layoutUpdates = [] ∧
      handleItemsPropertiesUpdated ⟨3, 1, []⟩ = (⟨3, 1, []⟩, .directMerge)) :=
  ⟨⟨by decide,
    (menu_inflight_blocks_direct_merge ⟨3, 1, [1]⟩).2.1 (by decide)⟩,
   ⟨rfl, (menu_inflight_blocks_direct_merge ⟨3, 1, []⟩).2.2 rfl⟩⟩

/-! ## C2: item removal -/

theorem itemStep_dead {s : ItemState} (hd : ItemDead s) (e : ItemEvent) :
    ItemDead (itemStep s e).1 ∧ (itemStep s e).2 = [] := by
  obtain ⟨h1, h2, h3, h4⟩ := hd
  cases e with
  | removedItem => simp [itemStep, h1, ItemDead, h2, h3, h4]
  | fetchComplete menuOpened =>
    simp only [itemStep, h4, if_false, if_neg h4]
    simp [ItemDead, h1, h2, h3]
  | changeSignal => simp [itemStep, h3, ItemDead, h1, h2, h4]
  | menuLayoutReply => simp [itemStep, h2, ItemDead, h1, h3, h4]

theorem itemRun_dead {s : ItemState} (hd : ItemDead s) (evs : List ItemEvent) :
    (itemRun s evs).2 = [] := by
  induction evs generalizing s with
  | nil => rfl
  | cons e rest ih =>
    obtain ⟨hd', hout⟩ := itemStep_dead hd e
    simp [itemRun, hout, ih hd']

/-- C2 (counterexample): for a freshly tracked item
(`status = New`, present in the tracker), running `handle_removed_item` and
then letting the initial property fetch complete leaves the status at
`Announced`, not `Removed`: the fetch task's final `*status = Announced`
assignment is unconditional and overwrites `Removed`. -/
theorem removed_status_overwritten :
    (itemRun ⟨.new, true, false, true, false⟩
        [.removedItem, .fetchComplete false]).1.status = .announced ∧
    (itemRun ⟨.new, true, false, true, false⟩
        [.removedItem, .fetchComplete false]).1.status ≠ .removed := by
  decide

/-- C2 (amended): `handle_removed_item` on a tracked item sets the status
to `Removed`, fires `removed()` exactly if an owner was installed, and
afterwards no callback (new-item, property-changed, menu-changed, removed)
ever fires for the item; the lifecycle status itself is not preserved: the
completion of the initial property fetch unconditionally overwrites it with
`Announced`, but does so without firing any callback. -/
theorem removed_item_silent (s : ItemState) (hs : s.inItems = true)
    (evs : List ItemEvent) :
    (itemStep s .removedItem).1.status = .removed ∧
    (itemStep s .removedItem).2 = (if s.hasOwner then [.removedCb] else []) ∧
    (itemRun (itemStep s .removedItem).1 evs).2 = [] := by
  refine ⟨by simp [itemStep, hs], by simp [itemStep, hs], ?_⟩
  apply itemRun_dead
  simp [itemStep, hs, ItemDead]

theorem removed_item_silent_witness :
    (⟨.new, true, true, true, false⟩ : ItemState).inItems = true ∧
    (itemStep ⟨.new, true, true, true, false⟩ .removedItem).1.status = .removed ∧
    (itemStep ⟨.new, true, true, true, false⟩ .removedItem).2 =
      (if (⟨.new, true, true, true, false⟩ : ItemState).hasOwner
        then [.removedCb] else []) ∧
    (itemRun (itemStep ⟨.new, true, true, true, false⟩ .removedItem).1
        [.fetchComplete true, .changeSignal, .menuLayoutReply]).2 = [] :=
  ⟨rfl, removed_item_silent ⟨.new, true, true, true, false⟩ rfl
    [.fetchComplete true, .changeSignal, .menuLayoutReply]⟩

/-! ## C3: kill semantics -/

/-- C3: `kill` fails every entry of the pending-replies table exactly once
with `Killed` and clears the signal-handler and exported-object tables
(and the pending-replies table, setting the killed flag); a call issued
after the kill still runs its callback exactly once with `Killed`, via the
kill queue, leaving no entry behind. -/
theorem kill_semantics (s : MbcState) (serial : Nat)
    (hnd : s.pendingReplies.Nodup) :
    (kill s).2 = s.pendingReplies.map .callbackKilled ∧
    (∀ t ∈ s.pendingReplies, (kill s).2.count (.callbackKilled t) = 1) ∧
    (kill s).1.signalHandlers = [] ∧
    (kill s).1.objects = [] ∧
    (kill s).1.pendingReplies = [] ∧
    (kill s).1.killed = true ∧
    (postKillCall (kill s).1 serial).2 = [.callbackKilled serial] ∧
    serial ∉ (postKillCall (kill s).1 serial).1.pendingReplies := by
  have hinj : Function.Injective MbcOutput.callbackKilled := by
    intro a b h
    cases h
    rfl
  refine ⟨rfl, ?_, rfl, rfl, rfl, rfl, ?_, ?_⟩
  · intro t ht
    rw [show (kill s).2 = s.pendingReplies.map .callbackKilled from rfl,
      List.count_map_of_injective _ _ hinj]
    exact List.count_eq_one_of_mem hnd ht
  · simp [postKillCall, callAsyncEnqueue, kill, killReply]
  · simp [postKillCall, callAsyncEnqueue, kill, killReply]

theorem kill_semantics_witness :
    ([5, 7] : List Nat).Nodup ∧
    (kill ⟨[5, 7], [1], ["/StatusNotifierWatcher"], false⟩).2 =
      [.callbackKilled 5, .callbackKilled 7] ∧
    (postKillCall (kill ⟨[5, 7], [1], ["/StatusNotifierWatcher"], false⟩).1 9).2 =
      [.callbackKilled 9] :=
  ⟨by decide,
   (kill_semantics ⟨[5, 7], [1], ["/StatusNotifierWatcher"], false⟩ 9
      (by decide)).1,
   (kill_semantics ⟨[5, 7], [1], ["/StatusNotifierWatcher"], false⟩ 9
      (by decide)).2.2.2.2.2.2.1⟩

/-! ## C4: pending-call handle semantics -/

theorem callRun_nil (s : CallState) : callRun s [] = s := rfl

theorem callRun_cons (s : CallState) (e : CallEvent) (evs : List CallEvent) :
    callRun s (e :: evs) = callRun (callStep s e) evs := rfl

theorem callRun_append (s : CallState) (a b : List CallEvent) :
    callRun s (a ++ b) = callRun (callRun s a) b :=
  List.foldl_append ..

theorem callRun_of_not_present (s : CallState) (h : s.present = false)
    (evs : List CallEvent) :
    (callRun s evs).invoked = s.invoked ∧ (callRun s evs).present = false := by
  induction evs generalizing s with
  | nil => exact ⟨rfl, h⟩
  | cons e rest ih =>
    rw [callRun_cons]
    have hstep : (callStep s e).present = false ∧
        (callStep s e).invoked = s.invoked := by
      cases e <;> simp [callStep, h] <;> split <;> simp [h]
    obtain ⟨hp', hi'⟩ := hstep
    obtain ⟨a, b⟩ := ih _ hp'
    exact ⟨a.trans hi', b⟩

theorem callRun_invoked_le (s : CallState)
    (hinv : s.invoked + (if s.present then 1 else 0) ≤ 1) (evs : List CallEvent) :
    (callRun s evs).invoked ≤ 1 := by
  induction evs generalizing s with
  | nil => simp only [callRun_nil]; split at hinv <;> omega
  | cons e rest ih =>
    rw [callRun_cons]
    refine ih _ ?_
    cases e <;> simp only [callStep] <;> split <;> (try split) <;>
      simp_all <;> omega

theorem callRun_only_drops (s : CallState) (hi : s.invoked = 0)
    (hd : s.detached = false) (evs : List CallEvent)
    (h1 : CallEvent.detach ∉ evs) (h2 : CallEvent.reply ∉ evs)
    (h3 : CallEvent.kill ∉ evs) :
    (callRun s evs).invoked = 0 ∧ (callRun s evs).detached = false := by
  induction evs generalizing s with
  | nil => exact ⟨hi, hd⟩
  | cons e rest ih =>
    simp only [List.mem_cons, not_or] at h1 h2 h3
    rw [callRun_cons]
    cases e with
    | dropHandle =>
      exact ih _ (by simp [callStep, hd, hi]) (by simp [callStep, hd])
        h1.2 h2.2 h3.2
    | detach => exact absurd rfl h1.1
    | reply => exact absurd rfl h2.1
    | kill => exact absurd rfl h3.1

theorem callRun_no_detach (s : CallState) (hp : s.present = true)
    (hi : s.invoked = 0) (evs : List CallEvent)
    (h1 : CallEvent.dropHandle ∉ evs) (h2 : CallEvent.reply ∉ evs)
    (h3 : CallEvent.kill ∉ evs) :
    (callRun s evs).invoked = 0 ∧ (callRun s evs).present = true := by
  induction evs generalizing s with
  | nil => exact ⟨hi, hp⟩
  | cons e rest ih =>
    simp only [List.mem_cons, not_or] at h1 h2 h3
    rw [callRun_cons]
    cases e with
    | dropHandle => exact absurd rfl h1.1
    | detach =>
      exact ih _ (by simp [callStep, hp]) (by simp [callStep, hi])
        h1.2 h2.2 h3.2
    | reply => exact absurd rfl h2.1
    | kill => exact absurd rfl h3.1

theorem callRun_armed (s : CallState) (hp : s.present = true)
    (hdet : s.detached = true) (hi : s.invoked = 0) (evs : List CallEvent)
    (hev : CallEvent.reply ∈ evs ∨ CallEvent.kill ∈ evs) :
    (callRun s evs).invoked = 1 := by
  induction evs generalizing s with
  | nil => simp at hev
  | cons e rest ih =>
    rw [callRun_cons]
    cases e with
    | dropHandle =>
      have hrest : CallEvent.reply ∈ rest ∨ CallEvent.kill ∈ rest := by
        simpa using hev
      exact ih _ (by simp [callStep, hdet, hp]) (by simp [callStep, hdet])
        (by simp [callStep, hdet, hi]) hrest
    | detach =>
      have hrest : CallEvent.reply ∈ rest ∨ CallEvent.kill ∈ rest := by
        simpa using hev
      exact ih _ (by simp [callStep, hp]) (by simp [callStep])
        (by simp [callStep, hi]) hrest
    | reply =>
      have hstep : (callStep s .reply).present = false ∧
          (callStep s .reply).invoked = 1 := by
        simp [callStep, hp, hi]
      have := (callRun_of_not_present _ hstep.1 rest).1
      rw [this, hstep.2]
    | kill =>
      have hstep : (callStep s .kill).present = false ∧
          (callStep s .kill).invoked = 1 := by
        simp [callStep, hp, hi]
      have := (callRun_of_not_present _ hstep.1 rest).1
      rw [this, hstep.2]

/-- C4: the callback of a `call_async` call runs at most once in all cases;
if the `Call` handle is dropped before any reply, error, or kill, the
callback never runs (a late reply with that serial is discarded); if
`detach` was called on the live handle, the callback runs exactly once as
soon as a reply, error, or kill arrives, even if the handle is later
dropped. -/
theorem call_handle_semantics (evs pre post : List CallEvent) :
    (callRun callInit evs).invoked ≤ 1 ∧
    (CallEvent.detach ∉ pre → CallEvent.reply ∉ pre → CallEvent.kill ∉ pre →
      (callRun callInit (pre ++ CallEvent.dropHandle :: post)).invoked = 0) ∧
    (CallEvent.dropHandle ∉ pre → CallEvent.reply ∉ pre →
      CallEvent.kill ∉ pre →
      (CallEvent.reply ∈ post ∨ CallEvent.kill ∈ post) →
      (callRun callInit (pre ++ CallEvent.detach :: post)).invoked = 1) := by
  refine ⟨callRun_invoked_le _ (by simp [callInit]) evs, ?_, ?_⟩
  · intro h1 h2 h3
    rw [callRun_append]
    obtain ⟨hi, hd⟩ := callRun_only_drops callInit rfl rfl pre h1 h2 h3
    rw [callRun_cons]
    have hstep : (callStep (callRun callInit pre) .dropHandle).present = false ∧
        (callStep (callRun callInit pre) .dropHandle).invoked = 0 := by
      simp [callStep, hd, hi]
    obtain ⟨hp', hi'⟩ := hstep
    have := (callRun_of_not_present _ hp' post).1
    rw [this, hi']
  · intro h1 h2 h3 hev
    rw [callRun_append]
    obtain ⟨hi, hp⟩ := callRun_no_detach callInit rfl rfl pre h1 h2 h3
    rw [callRun_cons]
    exact callRun_armed _ (by simp [callStep, hp]) (by simp [callStep])
      (by simp [callStep, hi]) post hev

theorem call_handle_semantics_witness :
    (callRun callInit [CallEvent.reply, CallEvent.reply]).invoked ≤ 1 ∧
    ((CallEvent.detach ∉ ([] : List CallEvent) ∧
      CallEvent.reply ∉ ([] : List CallEvent) ∧
      CallEvent.kill ∉ ([] : List CallEvent)) ∧
      (callRun callInit
        ([] ++ CallEvent.dropHandle :: [CallEvent.reply])).invoked = 0) ∧
    (CallEvent.reply ∈ [CallEvent.dropHandle, CallEvent.reply] ∧
      (callRun callInit
        ([] ++ CallEvent.detach ::
          [CallEvent.dropHandle, CallEvent.reply])).invoked = 1) :=
  ⟨(call_handle_semantics [CallEvent.reply, CallEvent.reply] [] []).1,
   ⟨⟨by simp, by simp, by simp⟩,
    (call_handle_semantics [] [] [CallEvent.reply]).2.1
      (by simp) (by simp) (by simp)⟩,
   ⟨by simp,
    (call_handle_semantics [] [] [CallEvent.dropHandle, CallEvent.reply]).2.2
      (by simp) (by simp) (by simp) (by simp)⟩⟩

/-! ## Children-list lemmas for the menu reconciler -/

theorem findChild_isSome_iff (cs : List MenuTree) (i : Int) :
    (findChild cs i).isSome ↔ i ∈ idsOf cs := by
  simp only [findChild, List.find?_isSome, idsOf, List.mem_map, beq_iff_eq]

theorem findChild_eq_none_iff (cs : List MenuTree) (i : Int) :
    findChild cs i = none ↔ i ∉ idsOf cs := by
  rw [← findChild_isSome_iff]
  cases findChild cs i <;> simp

theorem findChild_mem {cs : List MenuTree} {i : Int} {c : MenuTree}
    (h : findChild cs i = some c) : c ∈ cs :=
  List.mem_of_find?_eq_some h

theorem findChild_id {cs : List MenuTree} {i : Int} {c : MenuTree}
    (h : findChild cs i = some c) : c.menuId = i := by
  have := List.find?_some h
  simpa using this

theorem mem_id_unique {cs : List MenuTree} (hnd : (idsOf cs).Nodup)
    {c c' : MenuTree} (hc : c ∈ cs) (hc' : c' ∈ cs)
    (h : c.menuId = c'.menuId) : c = c' :=
  List.inj_on_of_nodup_map hnd hc hc' h

theorem findChild_of_mem {cs : List MenuTree} (hnd : (idsOf cs).Nodup)
    {c : MenuTree} (hc : c ∈ cs) : findChild cs c.menuId = some c := by
  cases h : findChild cs c.menuId with
  | none =>
    rw [findChild_eq_none_iff] at h
    exact absurd (List.mem_map_of_mem _ hc) h
  | some c' =>
    rw [mem_id_unique hnd (findChild_mem h) hc (findChild_id h)]

theorem findChild_append (a b : List MenuTree) (i : Int) :
    findChild (a ++ b) i = (findChild a i).or (findChild b i) :=
  List.find?_append

theorem replaceChild_of_not_mem {cs : List MenuTree} {i : Int}
    (h : i ∉ idsOf cs) (c' : MenuTree) : replaceChild cs i c' = cs := by
  induction cs with
  | nil => rfl
  | cons c rest ih =>
    simp only [idsOf, List.map_cons, List.mem_cons, not_or] at h
    simp only [replaceChild, beq_iff_eq]
    rw [if_neg (Ne.symm h.1), ih (by simpa [idsOf] using h.2)]

theorem idsOf_replaceChild {c' : MenuTree} {i : Int}
    (hid : c'.menuId = i) (cs : List MenuTree) :
    idsOf (replaceChild cs i c') = idsOf cs := by
  induction cs with
  | nil => rfl
  | cons c rest ih =>
    simp only [replaceChild, beq_iff_eq]
    split
    · simp only [idsOf, List.map_cons, hid]
      congr 1
      omega
    · simp only [idsOf, List.map_cons] at ih ⊢
      rw [ih]

theorem replaceChild_eq_map {cs : List MenuTree}
    (hnd : (idsOf cs).Nodup) (i : Int) (c' : MenuTree) :
    replaceChild cs i c' =
      cs.map (fun c => if c.menuId = i then c' else c) := by
  induction cs with
  | nil => rfl
  | cons c rest ih =>
    simp only [idsOf, List.map_cons, List.nodup_cons] at hnd
    simp only [replaceChild, beq_iff_eq, List.map_cons]
    split
    · rename_i hceq
      congr 1
      have key : ∀ x ∈ rest, (if x.menuId = i then c' else x) = x := by
        intro x hx
        rw [if_neg]
        intro hxi
        exact hnd.1 (hceq ▸ hxi ▸ List.mem_map_of_mem MenuTree.menuId hx)
      rw [List.map_congr_left key]
      exact (List.map_id rest).symm
    · rw [ih hnd.2]

theorem findChild_replaceChild_ne {c' : MenuTree} {i j : Int}
    (hid : c'.menuId = i) (hne : j ≠ i) (cs : List MenuTree) :
    findChild (replaceChild cs i c') j = findChild cs j := by
  induction cs with
  | nil => rfl
  | cons c rest ih =>
    simp only [replaceChild, beq_iff_eq]
    split
    · rename_i hceq
      have h1 : (c'.menuId == j) = false := by
        simp [hid, Ne.symm hne]
      have h2 : (c.menuId == j) = false := by
        simp [hceq, Ne.symm hne]
      simp only [findChild, List.find?_cons, h1, h2]
    · simp only [findChild, List.find?_cons] at ih ⊢
      cases hcj : (c.menuId == j) <;> simp [hcj, ih]


/-! ## Unfolding and closed forms for the merge -/

theorem MenuTree.eta (t : MenuTree) :
    MenuTree.mk t.menuId t.properties t.children = t := by
  cases t
  rfl

theorem mergeTree_eq (t n : MenuTree) :
    mergeTree t n =
      (MenuTree.mk t.menuId (mergeProperties t.properties n.properties).1
        (mergeChildren (keptChildren t n) n.children).1,
       if (mergeProperties t.properties n.properties).2.isNone &&
          !(removedAnyChild t n ||
            (mergeChildren (keptChildren t n) n.children).2.2) then
         none
       else
         some (SniMenuDelta.mk t.menuId
           (mergeProperties t.properties n.properties).2
           (if removedAnyChild t n ||
               (mergeChildren (keptChildren t n) n.children).2.2 then
             some (mergeChildren (keptChildren t n) n.children).2.1
           else none))) := by
  cases t
  cases n
  simp only [mergeTree, keptChildren, removedAnyChild, MenuTree.menuId_mk,
    MenuTree.properties_mk, MenuTree.children_mk]

theorem mergeTree_fst_menuId (t n : MenuTree) :
    (mergeTree t n).1.menuId = t.menuId := by
  rw [mergeTree_eq]
  simp

theorem mergeTree_fst_properties (t n : MenuTree) :
    (mergeTree t n).1.properties = n.properties := by
  rw [mergeTree_eq]
  simp [mergeProperties_fst]

theorem mergeTree_fst_children (t n : MenuTree) :
    (mergeTree t n).1.children =
      (mergeChildren (keptChildren t n) n.children).1 := by
  rw [mergeTree_eq]
  simp

theorem mergeTree_snd_none_iff (t n : MenuTree) :
    (mergeTree t n).2 = none ↔
      ((mergeProperties t.properties n.properties).2 = none ∧
        removedAnyChild t n = false ∧
        (mergeChildren (keptChildren t n) n.children).2.2 = false) := by
  rw [mergeTree_eq]
  split
  · rename_i h
    simp only [Bool.and_eq_true, Bool.not_eq_true', Bool.or_eq_false_iff,
      Option.isNone_iff_eq_none] at h
    simp [h.1, h.2.1, h.2.2]
  · rename_i h
    constructor
    · intro hc
      simp at hc
    · intro ⟨h1, h2, h3⟩
      rw [h1, h2, h3] at h
      simp at h

theorem mergeChildren_nil (cur : List MenuTree) :
    mergeChildren cur [] = (cur, [], false) := by
  simp [mergeChildren]

theorem mergeChildren_cons (cur : List MenuTree) (nc : MenuTree)
    (rest : List MenuTree) :
    mergeChildren cur (nc :: rest) =
      (let pr :=
        match findChild cur nc.menuId with
        | none => (cur ++ [nc], some (fullDelta nc))
        | some c =>
          let m := mergeTree c nc
          (replaceChild cur nc.menuId m.1, m.2)
       let r := mergeChildren pr.1 rest
       (r.1, (nc.menuId, pr.2) :: r.2.1, pr.2.isSome || r.2.2)) := by
  simp [mergeChildren]

theorem findChild_cons (c : MenuTree) (cs : List MenuTree) (j : Int) :
    findChild (c :: cs) j =
      if c.menuId = j then some c else findChild cs j := by
  simp only [findChild, List.find?_cons]
  cases h : (c.menuId == j) <;> simp_all

theorem findChild_singleton_ne {c : MenuTree} {j : Int}
    (h : c.menuId ≠ j) : findChild [c] j = none := by
  rw [findChild_cons, if_neg h]
  rfl

theorem findChild_isNone_congr {a b : List MenuTree}
    (h : idsOf a = idsOf b) (j : Int) :
    (findChild a j).isNone = (findChild b j).isNone := by
  cases ha : findChild a j <;> cases hb : findChild b j <;> try rfl
  · exfalso
    rw [findChild_eq_none_iff, h, ← findChild_eq_none_iff, hb] at ha
    exact Option.noConfusion ha
  · exfalso
    rw [findChild_eq_none_iff, ← h, ← findChild_eq_none_iff, ha] at hb
    exact Option.noConfusion hb

theorem mergeChildren_changed_eq (ns : List MenuTree) (cur : List MenuTree) :
    (mergeChildren cur ns).2.2 =
      (mergeChildren cur ns).2.1.any (fun e => e.2.isSome) := by
  induction ns generalizing cur with
  | nil => simp [mergeChildren_nil]
  | cons nc rest ih =>
    rw [mergeChildren_cons]
    cases hfc : findChild cur nc.menuId <;> simp [hfc, ih]

theorem mergeChildren_entries (ns : List MenuTree) (hns : (idsOf ns).Nodup)
    (cur : List MenuTree) :
    (mergeChildren cur ns).2.1 =
      ns.map (fun nc => (nc.menuId, mergeEntry cur nc)) := by
  induction ns generalizing cur with
  | nil => simp [mergeChildren_nil]
  | cons nc rest ih =>
    simp only [idsOf, List.map_cons, List.nodup_cons] at hns
    have hn2 : (idsOf rest).Nodup := hns.2
    have hstep : ∀ nc' ∈ rest, ∀ (cur1 : List MenuTree),
        findChild cur1 nc'.menuId = findChild cur nc'.menuId →
        mergeEntry cur1 nc' = mergeEntry cur nc' := by
      intro nc' _ cur1 hf
      rw [mergeEntry, mergeEntry, hf]
    have hne : ∀ nc' ∈ rest, nc'.menuId ≠ nc.menuId := by
      intro nc' hm h
      exact hns.1 (h ▸ List.mem_map_of_mem MenuTree.menuId hm)
    rw [mergeChildren_cons, List.map_cons]
    cases hfc : findChild cur nc.menuId with
    | none =>
      have hme : mergeEntry cur nc = some (fullDelta nc) := by
        rw [mergeEntry, hfc]
      simp only [hfc, hme]
      congr 1
      rw [ih hn2 (cur ++ [nc])]
      refine List.map_congr_left ?_
      intro nc' hnc'
      refine congrArg (fun z => (nc'.menuId, z)) (hstep nc' hnc' _ ?_)
      rw [findChild_append, findChild_singleton_ne (Ne.symm (hne nc' hnc')),
        Option.or_none]
    | some c =>
      have hme : mergeEntry cur nc = (mergeTree c nc).2 := by
        rw [mergeEntry, hfc]
      simp only [hfc, hme]
      have hid1 : (mergeTree c nc).1.menuId = nc.menuId := by
        rw [mergeTree_fst_menuId]
        exact findChild_id hfc
      congr 1
      rw [ih hn2 (replaceChild cur nc.menuId (mergeTree c nc).1)]
      refine List.map_congr_left ?_
      intro nc' hnc'
      exact congrArg (fun z => (nc'.menuId, z)) (hstep nc' hnc' _
        (findChild_replaceChild_ne hid1 (hne nc' hnc') cur))

theorem mergeChildren_fst (ns : List MenuTree) (hns : (idsOf ns).Nodup)
    (cur : List MenuTree) (hcur : (idsOf cur).Nodup) :
    (mergeChildren cur ns).1 =
      cur.map (fun c =>
        (findChild ns c.menuId).elim c (fun nc => (mergeTree c nc).1)) ++
      ns.filter (fun nc => (findChild cur nc.menuId).isNone) := by
  induction ns generalizing cur with
  | nil => simp [mergeChildren_nil, findChild]
  | cons nc rest ih =>
    simp only [idsOf, List.map_cons, List.nodup_cons] at hns
    have hn2 : (idsOf rest).Nodup := hns.2
    have hne : ∀ nc' ∈ rest, nc'.menuId ≠ nc.menuId := by
      intro nc' hm h
      exact hns.1 (h ▸ List.mem_map_of_mem MenuTree.menuId hm)
    have hrestnone : findChild rest nc.menuId = none := by
      rw [findChild_eq_none_iff]
      exact fun hmem => hns.1 (by simpa [idsOf] using hmem)
    rw [mergeChildren_cons]
    cases hfc : findChild cur nc.menuId with
    | some c =>
      simp only [hfc]
      have hid1 : (mergeTree c nc).1.menuId = nc.menuId := by
        rw [mergeTree_fst_menuId]
        exact findChild_id hfc
      have hids : idsOf (replaceChild cur nc.menuId (mergeTree c nc).1) =
          idsOf cur := idsOf_replaceChild hid1 cur
      rw [ih hn2 _ (hids ▸ hcur)]
      have hfilter : rest.filter
            (fun nc' => (findChild
              (replaceChild cur nc.menuId (mergeTree c nc).1)
                nc'.menuId).isNone) =
          rest.filter (fun nc' => (findChild cur nc'.menuId).isNone) := by
        refine List.filter_congr ?_
        intro nc' _
        rw [findChild_isNone_congr hids]
      have hdrop : (nc :: rest).filter
            (fun nc' => (findChild cur nc'.menuId).isNone) =
          rest.filter (fun nc' => (findChild cur nc'.menuId).isNone) := by
        rw [List.filter_cons]
        simp [hfc]
      rw [hfilter, hdrop, replaceChild_eq_map hcur, List.map_map]
      congr 1
      refine List.map_congr_left ?_
      intro c0 hc0
      simp only [Function.comp]
      by_cases hc0id : c0.menuId = nc.menuId
      · rw [if_pos hc0id, findChild_cons, if_pos hc0id.symm, hid1, hrestnone]
        have hc0c : c0 = c :=
          mem_id_unique hcur hc0 (findChild_mem hfc)
            (hc0id.trans (findChild_id hfc).symm)
        rw [hc0c]
        rfl
      · rw [if_neg hc0id, findChild_cons,
          if_neg (fun h => hc0id h.symm)]
    | none =>
      simp only [hfc]
      have hnotin : nc.menuId ∉ idsOf cur := by
        rw [← findChild_eq_none_iff]
        exact hfc
      have hnodup1 : (idsOf (cur ++ [nc])).Nodup := by
        simp only [idsOf, List.map_append, List.map_cons, List.map_nil]
        simp only [List.nodup_append, List.nodup_cons, List.not_mem_nil,
          not_false_eq_true, List.nodup_nil, and_true, true_and,
          List.disjoint_singleton]
        refine ⟨hcur, ?_⟩
        simpa [idsOf, List.mem_map] using hnotin
      rw [ih hn2 _ hnodup1]
      have hfilter : rest.filter
            (fun nc' => (findChild (cur ++ [nc]) nc'.menuId).isNone) =
          rest.filter (fun nc' => (findChild cur nc'.menuId).isNone) := by
        refine List.filter_congr ?_
        intro nc' hnc'
        rw [findChild_append, findChild_singleton_ne (Ne.symm (hne nc' hnc')),
          Option.or_none]
      have hkeep : (nc :: rest).filter
            (fun nc' => (findChild cur nc'.menuId).isNone) =
          nc :: rest.filter (fun nc' => (findChild cur nc'.menuId).isNone) := by
        rw [List.filter_cons]
        simp [hfc]
      rw [hfilter, hkeep, List.map_append]
      have hmapnc : [nc].map (fun c =>
          (findChild rest c.menuId).elim c (fun nc0 => (mergeTree c nc0).1)) =
          [nc] := by
        simp [hrestnone]
      have hmapcur : cur.map (fun c =>
          (findChild rest c.menuId).elim c (fun nc0 => (mergeTree c nc0).1)) =
          cur.map (fun c =>
            (findChild (nc :: rest) c.menuId).elim c
              (fun nc0 => (mergeTree c nc0).1)) := by
        refine List.map_congr_left ?_
        intro c0 hc0
        rw [findChild_cons, if_neg]
        intro h
        exact hnotin (h ▸ List.mem_map_of_mem MenuTree.menuId hc0)
      rw [hmapnc, hmapcur, List.append_assoc]
      rfl

theorem list_map_eq_self {l : List MenuTree} {f : MenuTree → MenuTree}
    (h : l.map f = l) : ∀ x ∈ l, f x = x := by
  induction l with
  | nil => intro x hx; cases hx
  | cons a rest ih =>
    rw [List.map_cons, List.cons.injEq] at h
    intro x hx
    rcases List.mem_cons.mp hx with rfl | hx'
    · exact h.1
    · exact ih h.2 x hx'

theorem mem_idsOf {cs : List MenuTree} {c : MenuTree} (hc : c ∈ cs) :
    c.menuId ∈ idsOf cs :=
  List.mem_map_of_mem MenuTree.menuId hc

theorem idsOf_append (a b : List MenuTree) :
    idsOf (a ++ b) = idsOf a ++ idsOf b :=
  List.map_append ..

theorem nodup_ids_filter {cs : List MenuTree} (h : (idsOf cs).Nodup)
    (p : MenuTree → Bool) : (idsOf (cs.filter p)).Nodup :=
  ((List.filter_sublist cs).map MenuTree.menuId).nodup h

theorem ids_filter_subset {cs : List MenuTree} (p : MenuTree → Bool) :
    ∀ i ∈ idsOf (cs.filter p), i ∈ idsOf cs := fun _ hi =>
  ((List.filter_sublist cs).map MenuTree.menuId).mem hi

theorem idsOf_map_elim (ns cur : List MenuTree) :
    idsOf (cur.map (fun c =>
      (findChild ns c.menuId).elim c (fun nc => (mergeTree c nc).1))) =
    idsOf cur := by
  simp only [idsOf, List.map_map]
  refine List.map_congr_left ?_
  intro c _
  simp only [Function.comp]
  cases h : findChild ns c.menuId with
  | none => rfl
  | some nc => simp [mergeTree_fst_menuId]

theorem WF_nodup {t : MenuTree} (h : WF t) : (idsOf t.children).Nodup := by
  cases h
  assumption

theorem WF_children {t : MenuTree} (h : WF t) : ∀ c ∈ t.children, WF c := by
  cases h
  assumption

/-- Ids of the merged children list: the retained ids followed by the ids of
the genuinely new children. -/
theorem ids_mergeChildren (ns : List MenuTree) (hns : (idsOf ns).Nodup)
    (cur : List MenuTree) (hcur : (idsOf cur).Nodup) :
    idsOf (mergeChildren cur ns).1 =
      idsOf cur ++
        idsOf (ns.filter (fun nc => (findChild cur nc.menuId).isNone)) := by
  rw [mergeChildren_fst ns hns cur hcur, idsOf_append, idsOf_map_elim]

theorem nodup_ids_mergeChildren (ns : List MenuTree) (hns : (idsOf ns).Nodup)
    (cur : List MenuTree) (hcur : (idsOf cur).Nodup) :
    (idsOf (mergeChildren cur ns).1).Nodup := by
  rw [ids_mergeChildren ns hns cur hcur, List.nodup_append]
  refine ⟨hcur, nodup_ids_filter hns _, ?_⟩
  intro i hi hif
  simp only [idsOf, List.mem_map] at hif
  obtain ⟨nc, hncmem, rfl⟩ := hif
  have hpred := (List.mem_filter.mp hncmem).2
  rw [Option.isNone_iff_eq_none, findChild_eq_none_iff] at hpred
  exact hpred hi

theorem ids_mergeChildren_subset (ns : List MenuTree)
    (hns : (idsOf ns).Nodup) (cur : List MenuTree)
    (hcur : (idsOf cur).Nodup) :
    ∀ i ∈ idsOf (mergeChildren cur ns).1, i ∈ idsOf cur ∨ i ∈ idsOf ns := by
  rw [ids_mergeChildren ns hns cur hcur]
  intro i hi
  rcases List.mem_append.mp hi with h | h
  · exact Or.inl h
  · exact Or.inr (ids_filter_subset _ i h)

/-- Merging a well-formed tree with itself yields the no-change result. -/
theorem selfMerge_snd (n : MenuTree) (hn : WF n) : (mergeTree n n).2 = none := by
  induction hn with
  | mk i p cs hnd hwf ih =>
    rw [mergeTree_snd_none_iff]
    refine ⟨?_, ?_, ?_⟩
    · rw [mergeProperties_snd_none_iff]
    · simp only [removedAnyChild, MenuTree.children_mk]
      rw [List.any_eq_false]
      intro c hc
      rw [findChild_of_mem hnd hc]
      simp
    · have hkept : keptChildren (.mk i p cs) (.mk i p cs) = cs := by
        simp only [keptChildren, MenuTree.children_mk]
        rw [List.filter_eq_self]
        intro c hc
        rw [findChild_of_mem hnd hc]
        rfl
      rw [mergeChildren_changed_eq, hkept]
      simp only [MenuTree.children_mk]
      rw [mergeChildren_entries cs hnd cs, List.any_eq_false]
      intro e he
      rw [List.mem_map] at he
      obtain ⟨nc, hnc, rfl⟩ := he
      simp only [mergeEntry, findChild_of_mem hnd hnc, ih nc hnc]
      simp

theorem keptChildren_nodup {t : MenuTree} (ht : WF t) (n : MenuTree) :
    (idsOf (keptChildren t n)).Nodup :=
  nodup_ids_filter (WF_nodup ht) _

theorem kept_ids_subset (t n : MenuTree) :
    ∀ i ∈ idsOf (keptChildren t n), i ∈ idsOf n.children := by
  intro i hi
  simp only [idsOf, List.mem_map] at hi
  obtain ⟨c, hc, rfl⟩ := hi
  have hp := (List.mem_filter.mp hc).2
  exact (findChild_isSome_iff _ _).mp hp

/-- Merging the already-merged tree with the same response again yields the
no-change result. -/
theorem mergeTree_again_snd (n : MenuTree) (hn : WF n) :
    ∀ t : MenuTree, WF t → t.menuId = n.menuId →
      (mergeTree (mergeTree t n).1 n).2 = none := by
  induction hn with
  | mk i p cs hnd hwf ih =>
    intro t ht _hid
    have hknodup : (idsOf (keptChildren t (.mk i p cs))).Nodup :=
      keptChildren_nodup ht _
    have hm_children : (mergeTree t (.mk i p cs)).1.children =
        (mergeChildren (keptChildren t (.mk i p cs)) cs).1 := by
      rw [mergeTree_fst_children]
      rfl
    have hm_nodup : (idsOf (mergeTree t (.mk i p cs)).1.children).Nodup := by
      rw [hm_children]
      exact nodup_ids_mergeChildren cs hnd _ hknodup
    have hm_sub : ∀ j ∈ idsOf (mergeTree t (.mk i p cs)).1.children,
        j ∈ idsOf cs := by
      rw [hm_children]
      intro j hj
      rcases ids_mergeChildren_subset cs hnd _ hknodup j hj with h | h
      · exact kept_ids_subset t (.mk i p cs) j h
      · exact h
    rw [mergeTree_snd_none_iff]
    refine ⟨?_, ?_, ?_⟩
    · rw [mergeTree_fst_properties]
      simp only [MenuTree.properties_mk]
      rw [mergeProperties_snd_none_iff]
    · simp only [removedAnyChild, MenuTree.children_mk]
      rw [List.any_eq_false]
      intro c' hc'
      have hj := hm_sub c'.menuId (mem_idsOf hc')
      rw [← findChild_isSome_iff] at hj
      cases hfind : findChild cs c'.menuId with
      | none => rw [hfind] at hj; simp at hj
      | some x => simp [hfind]
    · have hkept2 : keptChildren (mergeTree t (.mk i p cs)).1 (.mk i p cs) =
          (mergeTree t (.mk i p cs)).1.children := by
        simp only [keptChildren, MenuTree.children_mk]
        rw [List.filter_eq_self]
        intro c' hc'
        have hj := hm_sub c'.menuId (mem_idsOf hc')
        rw [← findChild_isSome_iff] at hj
        exact hj
      rw [mergeChildren_changed_eq, hkept2]
      simp only [MenuTree.children_mk]
      rw [mergeChildren_entries cs hnd _, List.any_eq_false]
      intro e he
      rw [List.mem_map] at he
      obtain ⟨nc, hnc, rfl⟩ := he
      suffices hsuff :
          mergeEntry (mergeTree t (.mk i p cs)).1.children nc = none by
        simp [hsuff]
      by_cases hin : nc.menuId ∈ idsOf (keptChildren t (.mk i p cs))
      · simp only [idsOf, List.mem_map] at hin
        obtain ⟨c, hckept, hcid⟩ := hin
        have hwfc : WF c := WF_children ht c (List.mem_filter.mp hckept).1
        have hcs_c : findChild cs c.menuId = some nc := by
          rw [hcid]
          have := findChild_of_mem hnd hnc
          simpa using this
        have hfmem : (mergeTree c nc).1 ∈
            (mergeTree t (.mk i p cs)).1.children := by
          rw [hm_children, mergeChildren_fst cs hnd _ hknodup]
          refine List.mem_append.mpr (Or.inl ?_)
          refine List.mem_map.mpr ⟨c, hckept, ?_⟩
          rw [hcs_c]
          rfl
        have hfid : (mergeTree c nc).1.menuId = nc.menuId := by
          rw [mergeTree_fst_menuId, hcid]
        have hfind : findChild (mergeTree t (.mk i p cs)).1.children
            nc.menuId = some (mergeTree c nc).1 := by
          have hx := findChild_of_mem hm_nodup hfmem
          rw [hfid] at hx
          exact hx
        simp only [mergeEntry, hfind]
        exact ih nc hnc c hwfc hcid
      · have hpred : (findChild (keptChildren t (.mk i p cs))
            nc.menuId).isNone := by
          rw [Option.isNone_iff_eq_none, findChild_eq_none_iff]
          exact hin
        have hmem2 : nc ∈ (mergeTree t (.mk i p cs)).1.children := by
          rw [hm_children, mergeChildren_fst cs hnd _ hknodup]
          refine List.mem_append.mpr (Or.inr ?_)
          exact List.mem_filter.mpr ⟨hnc, hpred⟩
        have hfind : findChild (mergeTree t (.mk i p cs)).1.children
            nc.menuId = some nc := findChild_of_mem hm_nodup hmem2
        simp only [mergeEntry, hfind]
        exact selfMerge_snd nc (hwf nc hnc)

/-- The first merge yields the no-change result exactly when it leaves the
mirror tree unchanged. -/
theorem mergeTree_none_iff (n : MenuTree) (hn : WF n) :
    ∀ t : MenuTree, WF t → t.menuId = n.menuId →
      ((mergeTree t n).2 = none ↔ (mergeTree t n).1 = t) := by
  induction hn with
  | mk i p cs hnd hwf ih =>
    intro t ht _hid
    have hknodup : (idsOf (keptChildren t (MenuTree.mk i p cs))).Nodup :=
      keptChildren_nodup ht _
    have hm_children : (mergeTree t (MenuTree.mk i p cs)).1.children =
        (mergeChildren (keptChildren t (MenuTree.mk i p cs)) cs).1 := by
      rw [mergeTree_fst_children]
      rfl
    constructor
    · intro hnone
      rw [mergeTree_snd_none_iff] at hnone
      obtain ⟨hpd, hrem, hch⟩ := hnone
      have hpe : t.properties = p := by
        have := (mergeProperties_snd_none_iff t.properties
          (MenuTree.mk i p cs).properties).mp hpd
        simpa using this
      have hall : ∀ c ∈ t.children, (findChild cs c.menuId).isSome := by
        simp only [removedAnyChild, MenuTree.children_mk] at hrem
        rw [List.any_eq_false] at hrem
        intro c hc
        have hx := hrem c hc
        cases hfind : findChild cs c.menuId with
        | none => rw [hfind] at hx; simp at hx
        | some x => simp
      have hkept : keptChildren t (MenuTree.mk i p cs) = t.children := by
        simp only [keptChildren, MenuTree.children_mk]
        rw [List.filter_eq_self]
        intro c hc
        exact hall c hc
      rw [mergeChildren_changed_eq, hkept] at hch
      simp only [MenuTree.children_mk] at hch
      rw [mergeChildren_entries cs hnd t.children, List.any_eq_false] at hch
      have hentry : ∀ nc ∈ cs, mergeEntry t.children nc = none := by
        intro nc hnc
        have hx := hch _ (List.mem_map_of_mem
          (fun nc => (nc.menuId, mergeEntry t.children nc)) hnc)
        simp only [Bool.not_eq_true] at hx
        cases hy : mergeEntry t.children nc with
        | none => rfl
        | some d => rw [hy] at hx; simp at hx
      have hfound : ∀ nc ∈ cs, ∃ c, findChild t.children nc.menuId = some c ∧
          (mergeTree c nc).2 = none := by
        intro nc hnc
        have h := hentry nc hnc
        cases hfc : findChild t.children nc.menuId with
        | none =>
          simp only [mergeEntry, hfc] at h
          exact absurd h (by simp)
        | some c =>
          simp only [mergeEntry, hfc] at h
          exact ⟨c, rfl, h⟩
      have hnew : cs.filter
          (fun nc => (findChild t.children nc.menuId).isNone) = [] := by
        rw [List.filter_eq_nil_iff]
        intro nc hnc
        obtain ⟨c, hfc, _⟩ := hfound nc hnc
        simp [hfc]
      have hmap : ∀ c ∈ t.children,
          ((findChild cs c.menuId).elim c (fun nc => (mergeTree c nc).1)) =
            c := by
        intro c hc
        obtain ⟨nc, hncfind⟩ := Option.isSome_iff_exists.mp (hall c hc)
        rw [hncfind]
        have hncmem : nc ∈ cs := findChild_mem hncfind
        have hncid : nc.menuId = c.menuId := findChild_id hncfind
        obtain ⟨c0, hc0find, hc0none⟩ := hfound nc hncmem
        have hcself : findChild t.children nc.menuId = some c := by
          rw [hncid]
          exact findChild_of_mem (WF_nodup ht) hc
        have hc0c : c0 = c := by
          rw [hcself] at hc0find
          exact (Option.some.injEq ..).mp hc0find.symm
        exact (ih nc hncmem c (WF_children ht c hc) hncid.symm).mp
          (hc0c ▸ hc0none)
      have h1 : (mergeTree t (MenuTree.mk i p cs)).1.menuId = t.menuId :=
        mergeTree_fst_menuId ..
      have h2 : (mergeTree t (MenuTree.mk i p cs)).1.properties =
          t.properties := by
        rw [mergeTree_fst_properties]
        simpa using hpe.symm
      have h3 : (mergeTree t (MenuTree.mk i p cs)).1.children =
          t.children := by
        rw [hm_children, hkept,
          mergeChildren_fst cs hnd t.children (WF_nodup ht), hnew,
          List.append_nil, List.map_congr_left hmap]
        simp
      calc (mergeTree t (MenuTree.mk i p cs)).1
          = MenuTree.mk (mergeTree t (MenuTree.mk i p cs)).1.menuId
              (mergeTree t (MenuTree.mk i p cs)).1.properties
              (mergeTree t (MenuTree.mk i p cs)).1.children :=
            (MenuTree.eta _).symm
        _ = MenuTree.mk t.menuId t.properties t.children := by
            rw [h1, h2, h3]
        _ = t := MenuTree.eta t
    · intro heq
      have hpe : t.properties = p := by
        have hx := congrArg MenuTree.properties heq
        rw [mergeTree_fst_properties] at hx
        simpa using hx.symm
      have hchi : (mergeTree t (MenuTree.mk i p cs)).1.children = t.children :=
        congrArg MenuTree.children heq
      have hall : ∀ c ∈ t.children, (findChild cs c.menuId).isSome := by
        intro c hc
        have hcm : c ∈ (mergeTree t (MenuTree.mk i p cs)).1.children :=
          hchi ▸ hc
        rw [hm_children] at hcm
        have hmem := mem_idsOf hcm
        rw [findChild_isSome_iff]
        rcases ids_mergeChildren_subset cs hnd _ hknodup _ hmem with h | h
        · exact kept_ids_subset t (MenuTree.mk i p cs) _ h
        · exact h
      have hkept : keptChildren t (MenuTree.mk i p cs) = t.children := by
        simp only [keptChildren, MenuTree.children_mk]
        rw [List.filter_eq_self]
        intro c hc
        exact hall c hc
      have hmchi : (mergeChildren t.children cs).1 = t.children := by
        have hz := hm_children
        rw [hkept] at hz
        rw [← hz, hchi]
      rw [mergeTree_snd_none_iff]
      refine ⟨?_, ?_, ?_⟩
      · simp only [MenuTree.properties_mk]
        rw [mergeProperties_snd_none_iff]
        exact hpe
      · simp only [removedAnyChild, MenuTree.children_mk]
        rw [List.any_eq_false]
        intro c hc
        have hx := hall c hc
        cases hfind : findChild cs c.menuId with
        | none => rw [hfind] at hx; simp at hx
        | some x => simp [hfind]
      · rw [mergeChildren_changed_eq, hkept]
        simp only [MenuTree.children_mk]
        rw [mergeChildren_entries cs hnd t.children, List.any_eq_false]
        have hclosed := mergeChildren_fst cs hnd t.children (WF_nodup ht)
        rw [hmchi] at hclosed
        have hnew : cs.filter
            (fun nc => (findChild t.children nc.menuId).isNone) = [] := by
          rw [List.filter_eq_nil_iff]
          intro nc hnc hpred
          have hmem2 : nc ∈ t.children := by
            rw [hclosed]
            exact List.mem_append.mpr
              (Or.inr (List.mem_filter.mpr ⟨hnc, hpred⟩))
          rw [Option.isNone_iff_eq_none, findChild_eq_none_iff] at hpred
          exact hpred (mem_idsOf hmem2)
        rw [hnew, List.append_nil] at hclosed
        have hpointwise := list_map_eq_self hclosed.symm
        intro e he
        rw [List.mem_map] at he
        obtain ⟨nc, hnc, rfl⟩ := he
        suffices hsuff : mergeEntry t.children nc = none by
          simp [hsuff]
        cases hfc : findChild t.children nc.menuId with
        | none =>
          exfalso
          have : nc ∈ cs.filter
              (fun nc => (findChild t.children nc.menuId).isNone) :=
            List.mem_filter.mpr ⟨hnc, by simp [hfc]⟩
          rw [hnew] at this
          cases this
        | some c =>
          simp only [mergeEntry, hfc]
          have hcmem : c ∈ t.children := findChild_mem hfc
          have hcid : c.menuId = nc.menuId := findChild_id hfc
          have hcs_c : findChild cs c.menuId = some nc := by
            rw [hcid]
            exact findChild_of_mem hnd hnc
          have hfcx := hpointwise c hcmem
          rw [hcs_c] at hfcx
          simp only [Option.elim] at hfcx
          exact (ih nc hnc c (WF_children ht c hcmem) hcid).mpr hfcx

/-- C7: menu reconciliation is idempotent: for every well-formed mirror tree
and parsed `GetLayout` response tree with the same root menu id, merging the
response a second time immediately after a first merge returns the
no-change result `none`; and the first merge returns a non-empty delta
exactly when the merge changed the mirror tree. -/
theorem menu_merge_idempotent (t n : MenuTree) (ht : WF t) (hn : WF n)
    (hid : t.menuId = n.menuId) :
    (mergeTree (mergeTree t n).1 n).2 = none ∧
    ((mergeTree t n).2 = none ↔ (mergeTree t n).1 = t) :=
  ⟨mergeTree_again_snd n hn t ht hid, mergeTree_none_iff n hn t ht hid⟩

theorem menu_merge_idempotent_witness :
    WF (MenuTree.mk 0 ⟨false, none, "", true, true, "", [], none, false, false⟩ []) ∧
    WF (MenuTree.mk 0 ⟨false, none, "", true, true, "", [], none, false, false⟩
      [MenuTree.mk 1 ⟨false, none, "x", true, true, "", [], none, false, false⟩ []]) ∧
    (MenuTree.mk 0 ⟨false, none, "", true, true, "", [], none, false, false⟩
      ([] : List MenuTree)).menuId =
      (MenuTree.mk 0 ⟨false, none, "", true, true, "", [], none, false, false⟩
        [MenuTree.mk 1 ⟨false, none, "x", true, true, "", [], none, false, false⟩ []]).menuId ∧
    ((mergeTree
        (mergeTree
          (MenuTree.mk 0 ⟨false, none, "", true, true, "", [], none, false, false⟩ [])
          (MenuTree.mk 0 ⟨false, none, "", true, true, "", [], none, false, false⟩
            [MenuTree.mk 1 ⟨false, none, "x", true, true, "", [], none, false, false⟩ []])).1
        (MenuTree.mk 0 ⟨false, none, "", true, true, "", [], none, false, false⟩
          [MenuTree.mk 1 ⟨false, none, "x", true, true, "", [], none, false, false⟩ []])).2 = none ∧
      ((mergeTree
          (MenuTree.mk 0 ⟨false, none, "", true, true, "", [], none, false, false⟩ [])
          (MenuTree.mk 0 ⟨false, none, "", true, true, "", [], none, false, false⟩
            [MenuTree.mk 1 ⟨false, none, "x", true, true, "", [], none, false, false⟩ []])).2 = none ↔
        (mergeTree
          (MenuTree.mk 0 ⟨false, none, "", true, true, "", [], none, false, false⟩ [])
          (MenuTree.mk 0 ⟨false, none, "", true, true, "", [], none, false, false⟩
            [MenuTree.mk 1 ⟨false, none, "x", true, true, "", [], none, false, false⟩ []])).1 =
          MenuTree.mk 0 ⟨false, none, "", true, true, "", [], none, false, false⟩ [])) := by
  have hw1 : WF (MenuTree.mk 0
      ⟨false, none, "", true, true, "", [], none, false, false⟩ []) :=
    WF.mk _ _ _ (by simp [idsOf]) (by intro c hc; simp at hc)
  have hwc : WF (MenuTree.mk 1
      ⟨false, none, "x", true, true, "", [], none, false, false⟩ []) :=
    WF.mk _ _ _ (by simp [idsOf]) (by intro c hc; simp at hc)
  have hw2 : WF (MenuTree.mk 0
      ⟨false, none, "", true, true, "", [], none, false, false⟩
      [MenuTree.mk 1 ⟨false, none, "x", true, true, "", [], none, false, false⟩ []]) := by
    refine WF.mk _ _ _ (by simp [idsOf]) ?_
    intro c hc
    simp only [List.mem_singleton] at hc
    subst hc
    exact hwc
  exact ⟨hw1, hw2, rfl, menu_merge_idempotent _ _ hw1 hw2 rfl⟩

/-- C9 (counterexample): merging a mirror with no children against a
response carrying one new child with menu id 1 produces a delta whose
children mapping carries id 1 with `some` of the full subtree delta, not
with `none` as the claim states for new children. -/
theorem menu_delta_new_child_is_some :
    (mergeTree
        (MenuTree.mk 0 ⟨false, none, "", true, true, "", [], none, false, false⟩ [])
        (MenuTree.mk 0 ⟨false, none, "", true, true, "", [], none, false, false⟩
          [MenuTree.mk 1 ⟨false, none, "", true, true, "", [], none, false, false⟩ []])).2 =
      some (SniMenuDelta.mk 0 none
        (some [(1, some (fullDelta (MenuTree.mk 1
          ⟨false, none, "", true, true, "", [], none, false, false⟩ [])))])) ∧
    some (fullDelta (MenuTree.mk 1
      ⟨false, none, "", true, true, "", [], none, false, false⟩ [])) ≠
      (none : Option SniMenuDelta) := by
  constructor
  · simp [mergeTree, mergeChildren, mergeProperties, findChild,
      MenuTree.menuId]
  · simp

/-- C9 (amended): the children mapping of a delta node emitted by
`MenuTree::merge` lists exactly the new tree's child ids, in the new order;
a genuinely new child id (absent from the retained mirror children) is
present with `some` of its full subtree delta; a retained child id is
present with the recursive merge delta, which is `none` exactly when that
child is unchanged; child ids absent from the mapping are the removed
children (the mapping's key set is the new tree's id set). -/
theorem menu_delta_children_encoding (t n : MenuTree) (ht : WF t)
    (hn : WF n) (_hid : t.menuId = n.menuId) :
    (∀ d, (mergeTree t n).2 = some d → ∀ m, d.children = some m →
      m = (mergeChildren (keptChildren t n) n.children).2.1) ∧
    (mergeChildren (keptChildren t n) n.children).2.1 =
      n.children.map (fun nc => (nc.menuId, mergeEntry (keptChildren t n) nc)) ∧
    (∀ nc ∈ n.children, findChild (keptChildren t n) nc.menuId = none →
      mergeEntry (keptChildren t n) nc = some (fullDelta nc)) ∧
    (∀ nc ∈ n.children, ∀ c, findChild (keptChildren t n) nc.menuId = some c →
      mergeEntry (keptChildren t n) nc = (mergeTree c nc).2 ∧
      ((mergeTree c nc).2 = none ↔ (mergeTree c nc).1 = c)) ∧
    (mergeChildren (keptChildren t n) n.children).2.1.map Prod.fst =
      idsOf n.children := by
  refine ⟨?_, ?_, ?_, ?_, ?_⟩
  · intro d hd m hm
    rw [mergeTree_eq] at hd
    simp only at hd
    split at hd
    · exact absurd hd (by simp)
    · rw [Option.some.injEq] at hd
      subst hd
      simp only [SniMenuDelta.children] at hm
      split at hm
      · rw [Option.some.injEq] at hm
        exact hm.symm
      · exact absurd hm (by simp)
  · exact mergeChildren_entries n.children (WF_nodup hn) _
  · intro nc _ hfc
    simp [mergeEntry, hfc]
  · intro nc hnc c hfc
    have hcmem : c ∈ t.children :=
      List.mem_of_mem_filter (findChild_mem hfc)
    have hcid : c.menuId = nc.menuId := findChild_id hfc
    refine ⟨by simp [mergeEntry, hfc], ?_⟩
    exact mergeTree_none_iff nc (WF_children hn nc hnc) c
      (WF_children ht c hcmem) hcid
  · rw [mergeChildren_entries n.children (WF_nodup hn) _, List.map_map]
    rfl

theorem menu_delta_children_encoding_witness :
    WF (MenuTree.mk 0 ⟨false, none, "", true, true, "", [], none, false, false⟩ []) ∧
    (MenuTree.mk 0 ⟨false, none, "", true, true, "", [], none, false, false⟩
      ([] : List MenuTree)).menuId = (0 : Int) ∧
    ((mergeChildren
        (keptChildren
          (MenuTree.mk 0 ⟨false, none, "", true, true, "", [], none, false, false⟩ [])
          (MenuTree.mk 0 ⟨false, none, "", true, true, "", [], none, false, false⟩ []))
        (MenuTree.mk 0 ⟨false, none, "", true, true, "", [], none, false, false⟩
          ([] : List MenuTree)).children).2.1.map Prod.fst =
      idsOf (MenuTree.mk 0 ⟨false, none, "", true, true, "", [], none, false, false⟩
        ([] : List MenuTree)).children) := by
  have hw : WF (MenuTree.mk 0
      ⟨false, none, "", true, true, "", [], none, false, false⟩ []) :=
    WF.mk _ _ _ (by simp [idsOf]) (by intro c hc; simp at hc)
  exact ⟨hw, rfl,
    (menu_delta_children_encoding _ _ hw hw rfl).2.2.2.2⟩

end WlTrayBridge

